import Mathlib

/-!
A shallow embedding of the Latin Shift Cipher core of the `fiddler` crate
(`src/lib.rs`, with the identically-behaving `classical_crypto` variant),
together with proofs of the specified properties.

Modelling conventions:
* Rust `i8` values are modelled as `Int`; the places where the `i8` range
  matters (integer parsing for keys) carry explicit `[-128, 127]` bounds.
* Fallible Rust operations (`Result<_, EncodingError>`, the panicking
  `to_char`) are modelled with `Option`.
* Rust strings are modelled as `String` (lists of characters); the standard
  library's `str::to_lowercase` / `str::to_uppercase` are modelled by their
  character-by-character action on every character whose image can reach the
  26-letter table: `A`-`Z` ↔ `a`-`z`, plus U+212A KELVIN SIGN → `k` for
  `to_lowercase`; every other character is left unchanged.  This preserves all
  observable parser behaviour: U+212A is the only Unicode character outside
  `A`-`Z` whose Rust lowercasing is a lowercase ASCII letter (the only other
  mapping into ASCII, U+0130 → `i` followed by U+0307, contains a combining
  mark that fails the table lookup), so for every character left unchanged by
  the model both the model and Rust produce something the table rejects.
-/

namespace Fiddler

/-- The default alphabet encoding for the Latin Shift Cipher
(constant `ALPH_ENCODING` in `src/lib.rs`). -/
def ALPH_ENCODING : List (Char × Int) :=
  [('a', 0), ('b', 1), ('c', 2), ('d', 3), ('e', 4), ('f', 5), ('g', 6), ('h', 7),
   ('i', 8), ('j', 9), ('k', 10), ('l', 11), ('m', 12), ('n', 13), ('o', 14), ('p', 15),
   ('q', 16), ('r', 17), ('s', 18), ('t', 19), ('u', 20), ('v', 21), ('w', 22), ('x', 23),
   ('y', 24), ('z', 25)]

/-- The modulus `m` for the ring `Z/mZ`, drawn from the length of
`ALPH_ENCODING` (constant `MODULUS` in `src/lib.rs`). -/
def MODULUS : Int := ALPH_ENCODING.length

/-- An element of the ring `Z/mZ` (struct `RingElement(i8)` in `src/lib.rs`). -/
structure RingElement where
  val : Int
deriving DecidableEq, Repr

/-- `RingElement::from_char`: look the character up in `ALPH_ENCODING`
(`find_map` over the table); `none` models `Err(RingElementEncodingError)`. -/
def RingElement.from_char (ltr : Char) : Option RingElement :=
  ALPH_ENCODING.findSome? fun p => if p.1 = ltr then some ⟨p.2⟩ else none

/-- `RingElement::to_char`: look the value up in `ALPH_ENCODING`
(`find_map` over the table); `none` models the `expect` panic branch. -/
def RingElement.to_char (r : RingElement) : Option Char :=
  ALPH_ENCODING.findSome? fun p => if p.2 = r.val then some p.1 else none

/-- `RingElement::from_i8`: `int.rem_euclid(MODULUS)`.  `Int.emod` with a
positive modulus is exactly Rust's `rem_euclid` (least nonnegative remainder). -/
def RingElement.from_i8 (n : Int) : RingElement :=
  ⟨n % MODULUS⟩

/-- `impl Add for RingElement`: a single conditional subtraction, as written
in the source (not a full modulo operation). -/
def RingElement.add (a b : RingElement) : RingElement :=
  if a.val + b.val ≥ MODULUS then ⟨a.val + b.val - MODULUS⟩ else ⟨a.val + b.val⟩

/-- `impl Sub for RingElement`: a single conditional addition, as written
in the source. -/
def RingElement.sub (a b : RingElement) : RingElement :=
  if a.val - b.val < 0 then ⟨a.val - b.val + MODULUS⟩ else ⟨a.val - b.val⟩

/-- A ring element is canonical when its value is in `[0, MODULUS)`;
this is the representation invariant maintained by all validating
constructors of the library. -/
def RingElement.canonical (r : RingElement) : Prop :=
  0 ≤ r.val ∧ r.val < MODULUS

instance (r : RingElement) : Decidable r.canonical := by
  unfold RingElement.canonical; infer_instance

/-- Character-level model of `str::to_lowercase` as used by
`CipherText::from_str`: maps `A`-`Z` to `a`-`z`, maps U+212A KELVIN SIGN to
its Unicode lowercase `k`, and leaves any other character unchanged.  These
are the only Unicode lowercase mappings whose output the alphabet table can
accept, so the model agrees with Rust on everything the parsers observe. -/
def toLowerChar (c : Char) : Char :=
  if 'A' ≤ c ∧ c ≤ 'Z' then Char.ofNat (c.toNat + 32)
  else if c = '\u212A' then 'k'
  else c

/-- Character-level model of `str::to_uppercase` as used by the
`Display` impl of `CipherText`: maps `a`-`z` to `A`-`Z` and leaves any
other character unchanged. -/
def toUpperChar (c : Char) : Char :=
  if 'a' ≤ c ∧ c ≤ 'z' then Char.ofNat (c.toNat - 32) else c

/-- A plaintext of arbitrary length (`struct Message(Vec<RingElement>)`).
In Rust this is a distinct newtype; here a type synonym suffices. -/
abbrev Message := List RingElement

/-- A ciphertext of arbitrary length (`struct CipherText(Vec<RingElement>)`). -/
abbrev CipherText := List RingElement

/-- A cryptographic key (`struct Key(RingElement)`). -/
structure Key where
  elt : RingElement
deriving DecidableEq, Repr

/-- Model of `Iterator::map(f).collect::<Result<Vec<_>, _>>()`: apply `f`
to each element in order, stopping at the first failure. -/
def collectResults (f : α → Option β) : List α → Option (List β)
  | [] => some []
  | a :: l =>
    match f a with
    | none => none
    | some b =>
      match collectResults f l with
      | none => none
      | some bs => some (b :: bs)

/-- `impl FromStr for Message`: map `RingElement::from_char` over the
characters and collect, failing on the first invalid character. -/
def Message.from_str (s : String) : Option Message :=
  collectResults RingElement.from_char s.data

/-- `impl fmt::Display for Message`: map each element through `to_char`
and collect into a string (`none` models the unreachable panic). -/
def Message.display (m : Message) : Option String :=
  (collectResults RingElement.to_char m).map String.mk

/-- `Message::encrypt`: elementwise ring addition of the key. -/
def Message.encrypt (m : Message) (key : Key) : CipherText :=
  m.map fun i => i.add key.elt

/-- `impl FromStr for CipherText`: lowercase the string first, then map
`RingElement::from_char` over the characters and collect. -/
def CipherText.from_str (s : String) : Option CipherText :=
  collectResults RingElement.from_char (s.data.map toLowerChar)

/-- `impl fmt::Display for CipherText`: map each element through `to_char`,
collect, then uppercase the result (Stinson's ALL CAPS convention). -/
def CipherText.display (c : CipherText) : Option String :=
  (collectResults RingElement.to_char c).map fun l => String.mk (l.map toUpperChar)

/-- `CipherText::decrypt`: elementwise ring subtraction of the key. -/
def CipherText.decrypt (c : CipherText) (key : Key) : Message :=
  c.map fun i => i.sub key.elt

/-- Accumulate the value of a run of ASCII digits (base 10), failing on
any non-digit character. -/
def parseDigits (acc : Nat) : List Char → Option Nat
  | [] => some acc
  | c :: l =>
    if '0' ≤ c ∧ c ≤ '9' then parseDigits (acc * 10 + (c.toNat - 48)) l else none

/-- What it means for a string to parse as a (sign-prefixed, base-10)
integer: an optional `+`/`-` sign followed by at least one ASCII digit.
This is the number denoted by the string, with no machine-width bound;
used as the specification-side notion of "parses as a base-10 integer". -/
def parseIntSpec (s : String) : Option Int :=
  let (sign, ds) : Int × List Char :=
    match s.data with
    | '+' :: rest => (1, rest)
    | '-' :: rest => (-1, rest)
    | l => (1, l)
  match ds with
  | [] => none
  | _ => (parseDigits 0 ds).map fun n => sign * n

/-- Model of `i8::from_str`: the string must denote an integer that fits
in `i8`.  (Rust checks overflow digit by digit; since the magnitude of the
accumulated value only grows as digits are consumed, an intermediate
overflow happens exactly when the final value is outside `[-128, 127]`,
so checking the final value is equivalent.) -/
def parse_i8 (s : String) : Option Int :=
  match parseIntSpec s with
  | none => none
  | some v => if -128 ≤ v ∧ v ≤ 127 then some v else none

/-- `impl FromStr for Key`: parse as `i8`, then require the value to lie
in `0..=25`; in-range values are passed through `RingElement::from_i8`. -/
def Key.from_str (s : String) : Option Key :=
  match parse_i8 s with
  | none => none
  | some key => if 0 ≤ key ∧ key ≤ 25 then some ⟨RingElement.from_i8 key⟩ else none

/-- The 26 lowercase Latin letters: the first components of `ALPH_ENCODING`. -/
def lowercaseLetters : List Char := ALPH_ENCODING.map Prod.fst

/-- The 26 uppercase Latin letters. -/
def uppercaseLetters : List Char := lowercaseLetters.map toUpperChar

/-- The 52 Latin letters, in either case. -/
def latinLetters : List Char := lowercaseLetters ++ uppercaseLetters

end Fiddler

namespace Fiddler

/-- The modulus drawn from the table length is 26. -/
theorem modulus_eq : MODULUS = 26 := by decide

/-- Collecting fails exactly when some element fails. -/
theorem collectResults_none_iff (f : α → Option β) :
    ∀ l : List α, collectResults f l = none ↔ ∃ a ∈ l, f a = none := by
  intro l
  induction l with
  | nil => simp [collectResults]
  | cons a t ih =>
    simp only [collectResults]
    cases hfa : f a with
    | none => simp [hfa]
    | some b =>
      cases hct : collectResults f t with
      | none =>
        simp only [List.mem_cons]
        constructor
        · intro _
          obtain ⟨x, hx, hfx⟩ := ih.mp hct
          exact ⟨x, Or.inr hx, hfx⟩
        · intro _; trivial
      | some bs =>
        simp only [List.mem_cons]
        constructor
        · intro h; exact absurd h (by simp)
        · rintro ⟨x, hx | hx, hfx⟩
          · subst hx; rw [hfa] at hfx; exact absurd hfx (by simp)
          · have hn : collectResults f t = none := ih.mpr ⟨x, hx, hfx⟩
            rw [hn] at hct; exact absurd hct (by simp)

/-- Collecting preserves length on success. -/
theorem collectResults_length (f : α → Option β) :
    ∀ (l : List α) (out : List β), collectResults f l = some out → out.length = l.length := by
  intro l
  induction l with
  | nil => intro out h; simp [collectResults] at h; simp [← h]
  | cons a t ih =>
    intro out h
    simp only [collectResults] at h
    cases hfa : f a with
    | none => rw [hfa] at h; exact absurd h (by simp)
    | some b =>
      rw [hfa] at h
      cases hct : collectResults f t with
      | none => rw [hct] at h; exact absurd h (by simp)
      | some bs =>
        rw [hct] at h
        simp only [Option.some.injEq] at h
        subst h
        simp [ih bs hct]

/-- When every element maps forward and back, collecting does too, elementwise. -/
theorem collectResults_roundtrip (f : α → Option β) (h : β → Option γ) (g : α → γ) :
    ∀ l : List α, (∀ a ∈ l, ∃ b, f a = some b ∧ h b = some (g a)) →
    ∃ out, collectResults f l = some out ∧ collectResults h out = some (l.map g) := by
  intro l
  induction l with
  | nil => intro _; exact ⟨[], rfl, rfl⟩
  | cons a t ih =>
    intro H
    obtain ⟨b, hfa, hhb⟩ := H a (List.mem_cons_self a t)
    obtain ⟨out, hout, hback⟩ := ih fun x hx => H x (List.mem_cons_of_mem a hx)
    refine ⟨b :: out, ?_, ?_⟩
    · simp [collectResults, hfa, hout]
    · simp [collectResults, hhb, hback]

/-- Every lowercase letter encodes to a ring element that decodes back to it. -/
theorem lower_roundtrip : ∀ c ∈ lowercaseLetters,
    ∃ r, RingElement.from_char c = some r ∧ RingElement.to_char r = some c := by decide

/-- Lowercasing a Latin letter yields a lowercase Latin letter. -/
theorem latin_lower_mem : ∀ c ∈ latinLetters, toLowerChar c ∈ lowercaseLetters := by decide

/-- Uppercasing after lowercasing a Latin letter equals uppercasing it directly. -/
theorem upper_lower : ∀ c ∈ latinLetters, toUpperChar (toLowerChar c) = toUpperChar c := by decide

/-- Every character with code in `[65, 90]` is one of the 26 uppercase letters. -/
theorem mem_upper_of_range (c : Char) (h1 : 65 ≤ c.toNat) (h2 : c.toNat ≤ 90) :
    c ∈ uppercaseLetters := by
  have h := Char.ofNat_toNat c
  interval_cases hn : c.toNat <;> (rw [← h]; decide)

/-- Lowercasing leaves any character that is neither a Latin letter nor the
Kelvin sign unchanged. -/
theorem toLower_eq_self_of_not_latin (c : Char) (hc : c ∉ latinLetters)
    (hk : c ≠ '\u212A') : toLowerChar c = c := by
  have h1 : ¬('A' ≤ c ∧ c ≤ 'Z') := fun hAB =>
    hc (List.mem_append_right _ (mem_upper_of_range c hAB.1 hAB.2))
  unfold toLowerChar
  rw [if_neg h1, if_neg hk]

/-- The character-to-ring encoding succeeds exactly on the lowercase letters. -/
theorem mem_lower_iff (c : Char) :
    (RingElement.from_char c).isSome ↔ c ∈ lowercaseLetters := by
  constructor
  · intro h
    rw [Option.isSome_iff_exists] at h
    obtain ⟨r, hr⟩ := h
    obtain ⟨⟨x, y⟩, hmem, hf⟩ := List.exists_of_findSome?_eq_some hr
    simp only at hf
    split at hf
    · rename_i hx
      subst hx
      exact List.mem_map_of_mem Prod.fst hmem
    · exact absurd hf (by simp)
  · intro h
    fin_cases h <;> decide

/-- Ring subtraction undoes ring addition on canonical elements. -/
theorem sub_add_cancel_elt (a k : RingElement) (ha : a.canonical) (hk : k.canonical) :
    (a.add k).sub k = a := by
  obtain ⟨av⟩ := a
  obtain ⟨kv⟩ := k
  simp only [RingElement.canonical, modulus_eq] at ha hk
  simp only [RingElement.add, RingElement.sub, modulus_eq]
  split <;> (dsimp only; split <;> (simp only [RingElement.mk.injEq]; omega))

/-- Unfolding lemma for `parse_i8`. -/
theorem parse_i8_eq (s : String) : parse_i8 s =
    (parseIntSpec s).bind fun v => if -128 ≤ v ∧ v ≤ 127 then some v else none := by
  unfold parse_i8
  cases parseIntSpec s <;> rfl

/-- Unfolding lemma for `Key.from_str`. -/
theorem key_from_str_eq (s : String) : Key.from_str s =
    (parse_i8 s).bind fun key =>
      if 0 ≤ key ∧ key ≤ 25 then some ⟨RingElement.from_i8 key⟩ else none := by
  unfold Key.from_str
  cases parse_i8 s <;> rfl

/-- C1: for every Message whose elements are canonical ring elements and every Key
with canonical value (in `[0,25]`), decrypting the encryption of the message under
the key with that same key returns the message exactly. -/
theorem shift_cipher_roundtrip (m : Message) (k : Key)
    (hm : ∀ r ∈ m, r.canonical) (hk : k.elt.canonical) :
    CipherText.decrypt (Message.encrypt m k) k = m := by
  unfold CipherText.decrypt Message.encrypt
  rw [List.map_map]
  induction m with
  | nil => rfl
  | cons a t ih =>
    simp only [List.map_cons, Function.comp_apply]
    rw [sub_add_cancel_elt a k.elt (hm a (List.mem_cons_self a t)) hk,
      ih fun r hr => hm r (List.mem_cons_of_mem a hr)]

/-- Witness for C1 at a concrete message and key. -/
theorem shift_cipher_roundtrip_witness :
    (∀ r ∈ ([⟨3⟩, ⟨0⟩, ⟨3⟩] : Message), r.canonical) ∧ (Key.mk ⟨11⟩).elt.canonical ∧
    CipherText.decrypt (Message.encrypt [⟨3⟩, ⟨0⟩, ⟨3⟩] ⟨⟨11⟩⟩) ⟨⟨11⟩⟩ = [⟨3⟩, ⟨0⟩, ⟨3⟩] :=
  ⟨by decide, by decide, shift_cipher_roundtrip _ _ (by decide) (by decide)⟩

/-- C2: `encrypt` maps each message element, in order, to element + key (ring
addition) and collects into a ciphertext of the same length; `decrypt` maps each
ciphertext element, in order, to element - key (ring subtraction) and collects
into a message of the same length.  Both are total Lean functions, so they
succeed for every Message/CipherText and Key. -/
theorem encrypt_decrypt_elementwise (m : Message) (ct : CipherText) (k : Key) (i : Nat) :
    (Message.encrypt m k).length = m.length ∧
    (CipherText.decrypt ct k).length = ct.length ∧
    (Message.encrypt m k)[i]? = (m[i]?).map (fun r => r.add k.elt) ∧
    (CipherText.decrypt ct k)[i]? = (ct[i]?).map (fun r => r.sub k.elt) := by
  refine ⟨?_, ?_, ?_, ?_⟩ <;> simp [Message.encrypt, CipherText.decrypt]

/-- C3: `Key::from_str` succeeds if and only if the string parses as a base-10
integer in `[0,25]`; parsing "25" succeeds while "26" and "-1" fail.
Out-of-range integers are rejected, never reduced modulo 26. -/
theorem key_parse_range :
    (∀ s : String, (Key.from_str s).isSome ↔
      ∃ n : Int, parseIntSpec s = some n ∧ 0 ≤ n ∧ n ≤ 25) ∧
    (Key.from_str "25").isSome ∧ Key.from_str "26" = none ∧ Key.from_str "-1" = none := by
  refine ⟨fun s => ?_, by decide, by decide, by decide⟩
  rw [key_from_str_eq, parse_i8_eq]
  cases hp : parseIntSpec s with
  | none => simp
  | some v =>
    simp only [Option.some_bind, Option.some.injEq]
    split_ifs <;> simp <;> omega

/-- C4: for every string composed only of lowercase Latin letters (including the
empty string), Message parsing succeeds with one ring element per character, and
rendering the parsed Message returns exactly the original string. -/
theorem message_parse_render_roundtrip (s : String)
    (h : ∀ c ∈ s.data, c ∈ lowercaseLetters) :
    ∃ m, Message.from_str s = some m ∧ m.length = s.data.length ∧
      Message.display m = some s := by
  obtain ⟨out, h1, h2⟩ := collectResults_roundtrip RingElement.from_char RingElement.to_char
    id s.data (fun c hc => lower_roundtrip c (h c hc))
  refine ⟨out, h1, collectResults_length _ _ _ h1, ?_⟩
  unfold Message.display
  rw [h2]
  simp only [List.map_id]
  rfl

/-- Witness for C4 at the concrete string "abc". -/
theorem message_parse_render_roundtrip_witness :
    (∀ c ∈ ("abc" : String).data, c ∈ lowercaseLetters) ∧
    ∃ m, Message.from_str "abc" = some m ∧ m.length = ("abc" : String).data.length ∧
      Message.display m = some "abc" :=
  ⟨by decide, message_parse_render_roundtrip "abc" (by decide)⟩

/-- C5: for every string of Latin letters in any mix of cases, Ciphertext parsing
succeeds, and rendering the parsed Ciphertext gives the uppercase form of the
string (the original casing is discarded). -/
theorem ciphertext_parse_render_roundtrip (s : String)
    (h : ∀ c ∈ s.data, c ∈ latinLetters) :
    ∃ ct, CipherText.from_str s = some ct ∧
      CipherText.display ct = some (String.mk (s.data.map toUpperChar)) := by
  have hpc : ∀ c ∈ s.data.map toLowerChar,
      ∃ r, RingElement.from_char c = some r ∧ RingElement.to_char r = some (id c) := by
    intro c hc
    obtain ⟨c0, hc0, rfl⟩ := List.mem_map.mp hc
    exact lower_roundtrip _ (latin_lower_mem c0 (h c0 hc0))
  obtain ⟨out, h1, h2⟩ := collectResults_roundtrip RingElement.from_char RingElement.to_char
    id (s.data.map toLowerChar) hpc
  refine ⟨out, h1, ?_⟩
  have hmaps : (s.data.map toLowerChar).map toUpperChar = s.data.map toUpperChar := by
    rw [List.map_map]
    exact List.map_congr_left fun c hc => upper_lower c (h c hc)
  unfold CipherText.display
  rw [h2]
  simp only [List.map_id]
  rw [show (some (s.data.map toLowerChar)).map (fun l => String.mk (l.map toUpperChar)) =
      some (String.mk ((s.data.map toLowerChar).map toUpperChar)) from rfl, hmaps]

/-- Witness for C5 at the concrete string "AbZ". -/
theorem ciphertext_parse_render_roundtrip_witness :
    (∀ c ∈ ("AbZ" : String).data, c ∈ latinLetters) ∧
    ∃ ct, CipherText.from_str "AbZ" = some ct ∧
      CipherText.display ct = some (String.mk (("AbZ" : String).data.map toUpperChar)) :=
  ⟨by decide, ciphertext_parse_render_roundtrip "AbZ" (by decide)⟩

/-- C6 (counterexample): the claim "Ciphertext parsing fails exactly when the
string contains a non-Latin-letter character" is false of the program at the
one-character string U+212A KELVIN SIGN: that character is not one of the 52
Latin letters, yet `to_lowercase` maps it to `k` and parsing succeeds. -/
theorem ciphertext_parse_validation_counterexample :
    ¬ ((CipherText.from_str "\u212A" = none) ↔
        ∃ c ∈ ("\u212A" : String).data, c ∉ latinLetters) := by decide

/-- C6 (amended): Ciphertext parsing case-folds to lowercase first and then
applies exactly Message parsing's per-character validation; it fails precisely
when the string contains a character that is neither a Latin letter nor
U+212A KELVIN SIGN (whose Unicode lowercase is `k`): uppercase letters are
accepted, while digits, punctuation and whitespace are rejected. -/
theorem ciphertext_parse_validation :
    (∀ s : String, CipherText.from_str s =
        Message.from_str (String.mk (s.data.map toLowerChar))) ∧
    (∀ s : String, CipherText.from_str s = none ↔
      ∃ c ∈ s.data, c ∉ latinLetters ∧ c ≠ '\u212A') ∧
    (CipherText.from_str "AbZ").isSome ∧ CipherText.from_str "a1" = none ∧
    CipherText.from_str "a;" = none ∧ CipherText.from_str "a b" = none := by
  refine ⟨fun s => rfl, fun s => ?_, by decide, by decide, by decide, by decide⟩
  unfold CipherText.from_str
  rw [collectResults_none_iff]
  constructor
  · rintro ⟨c, hc, hnone⟩
    obtain ⟨c0, hc0, rfl⟩ := List.mem_map.mp hc
    refine ⟨c0, hc0, fun hmem => ?_, fun hk => ?_⟩
    · have h2 := (mem_lower_iff _).mpr (latin_lower_mem c0 hmem)
      rw [hnone] at h2
      exact absurd h2 (by simp)
    · subst hk
      have hkk : RingElement.from_char (toLowerChar '\u212A') = some ⟨10⟩ := by decide
      rw [hnone] at hkk
      exact absurd hkk (by simp)
  · rintro ⟨c, hc, hnot, hk⟩
    refine ⟨toLowerChar c, List.mem_map_of_mem toLowerChar hc, ?_⟩
    rw [toLower_eq_self_of_not_latin c hnot hk]
    have hnl : c ∉ lowercaseLetters := fun hm => hnot (List.mem_append_left _ hm)
    cases hfc : RingElement.from_char c with
    | none => rfl
    | some r => exact absurd ((mem_lower_iff c).mp (by simp [hfc])) hnl

/-- C7: for canonical ring elements, `add` computes `(a + b) mod 26` and `sub`
computes `(a - b) mod 26` (each, by definition, via a single conditional
subtraction resp. addition rather than a full modulo), the result is again
canonical, and in particular `22 + 11 = 7` and `4 - 11 = 19` in the ring. -/
theorem ring_arithmetic (a b : RingElement) (ha : a.canonical) (hb : b.canonical) :
    ((a.add b).val = (a.val + b.val) % 26 ∧ (a.add b).canonical ∧
     (a.sub b).val = (a.val - b.val) % 26 ∧ (a.sub b).canonical) ∧
    RingElement.add ⟨22⟩ ⟨11⟩ = ⟨7⟩ ∧ RingElement.sub ⟨4⟩ ⟨11⟩ = ⟨19⟩ := by
  obtain ⟨av⟩ := a
  obtain ⟨bv⟩ := b
  simp only [RingElement.canonical, modulus_eq] at ha hb
  refine ⟨⟨?_, ?_, ?_, ?_⟩, by decide, by decide⟩ <;>
    (simp only [RingElement.add, RingElement.sub, RingElement.canonical, modulus_eq];
     split <;> (try dsimp only) <;> omega)

/-- Witness for C7 at concrete ring elements. -/
theorem ring_arithmetic_witness :
    (RingElement.canonical ⟨22⟩ ∧ RingElement.canonical ⟨11⟩) ∧
    (((RingElement.add ⟨22⟩ ⟨11⟩).val = ((22 : Int) + 11) % 26 ∧
      (RingElement.add ⟨22⟩ ⟨11⟩).canonical ∧
      (RingElement.sub ⟨22⟩ ⟨11⟩).val = ((22 : Int) - 11) % 26 ∧
      (RingElement.sub ⟨22⟩ ⟨11⟩).canonical) ∧
     RingElement.add ⟨22⟩ ⟨11⟩ = ⟨7⟩ ∧ RingElement.sub ⟨4⟩ ⟨11⟩ = ⟨19⟩) :=
  ⟨⟨by decide, by decide⟩, ring_arithmetic ⟨22⟩ ⟨11⟩ (by decide) (by decide)⟩

/-- C8: for every `i8` integer, `from_i8` returns the least nonnegative residue
modulo 26 — a value in `[0,25]` congruent to the input — and always succeeds;
in particular `from_i8 37 = 11` and `from_i8 (-3) = 23`. -/
theorem from_i8_canonical (n : Int) (h1 : -128 ≤ n) (h2 : n ≤ 127) :
    (0 ≤ (RingElement.from_i8 n).val ∧ (RingElement.from_i8 n).val < 26 ∧
      (n - (RingElement.from_i8 n).val) % 26 = 0) ∧
    RingElement.from_i8 37 = ⟨11⟩ ∧ RingElement.from_i8 (-3) = ⟨23⟩ := by
  refine ⟨?_, by decide, by decide⟩
  simp only [RingElement.from_i8, modulus_eq]
  omega

/-- Witness for C8 at the concrete input 100. -/
theorem from_i8_canonical_witness :
    ((-128 : Int) ≤ 100 ∧ (100 : Int) ≤ 127) ∧
    ((0 ≤ (RingElement.from_i8 100).val ∧ (RingElement.from_i8 100).val < 26 ∧
      ((100 : Int) - (RingElement.from_i8 100).val) % 26 = 0) ∧
     RingElement.from_i8 37 = ⟨11⟩ ∧ RingElement.from_i8 (-3) = ⟨23⟩) :=
  ⟨⟨by decide, by decide⟩, from_i8_canonical 100 (by decide) (by decide)⟩

/-- C9: the 26-entry `ALPH_ENCODING` table is a bijection between the lowercase
Latin letters and `{0,...,25}`: its letters are pairwise distinct, its values are
exactly `0..25`, `from_char`/`to_char` invert each other on the table, and
consequently `to_char` succeeds (the panic branch is unreachable) for every
canonical ring element. -/
theorem alphabet_codec_bijection :
    (∀ i j : Fin 26, (ALPH_ENCODING.get i).1 = (ALPH_ENCODING.get j).1 → i = j) ∧
    (∀ i : Fin 26, (ALPH_ENCODING.get i).2 = (i.val : Int)) ∧
    (∀ i : Fin 26,
      RingElement.from_char (ALPH_ENCODING.get i).1 = some ⟨(ALPH_ENCODING.get i).2⟩ ∧
      RingElement.to_char ⟨(ALPH_ENCODING.get i).2⟩ = some (ALPH_ENCODING.get i).1) ∧
    (∀ r : RingElement, r.canonical → (RingElement.to_char r).isSome) := by
  refine ⟨by decide, by decide, by decide, fun r hr => ?_⟩
  obtain ⟨v⟩ := r
  simp only [RingElement.canonical, modulus_eq] at hr
  have hdec : ∀ k : Fin 26, (RingElement.to_char ⟨(k.val : Int)⟩).isSome := by decide
  obtain ⟨k, hk, hv⟩ : ∃ k : Nat, k < 26 ∧ v = (k : Int) := ⟨v.toNat, by omega, by omega⟩
  rw [hv]
  exact hdec ⟨k, hk⟩

/-- Witness for C9 at the concrete canonical element 3. -/
theorem alphabet_codec_bijection_witness :
    RingElement.canonical ⟨3⟩ ∧ (RingElement.to_char ⟨3⟩).isSome :=
  ⟨by decide, alphabet_codec_bijection.2.2.2 ⟨3⟩ (by decide)⟩

/-- C10: encrypting the parsed message "wewillmeetatmidnight" with key 11 yields
a ciphertext rendering as "HPHTWWXPPELEXTOYTRSE", and decrypting that ciphertext
with key 11 renders back "wewillmeetatmidnight" (Stinson's textbook example). -/
theorem stinson_example :
    ∃ (m : Message) (ct : CipherText),
      Message.from_str "wewillmeetatmidnight" = some m ∧
      Message.encrypt m ⟨⟨11⟩⟩ = ct ∧
      CipherText.display ct = some "HPHTWWXPPELEXTOYTRSE" ∧
      Message.display (CipherText.decrypt ct ⟨⟨11⟩⟩) = some "wewillmeetatmidnight" :=
  ⟨[⟨22⟩, ⟨4⟩, ⟨22⟩, ⟨8⟩, ⟨11⟩, ⟨11⟩, ⟨12⟩, ⟨4⟩, ⟨4⟩, ⟨19⟩, ⟨0⟩, ⟨19⟩, ⟨12⟩, ⟨8⟩, ⟨3⟩,
    ⟨13⟩, ⟨8⟩, ⟨6⟩, ⟨7⟩, ⟨19⟩],
   [⟨7⟩, ⟨15⟩, ⟨7⟩, ⟨19⟩, ⟨22⟩, ⟨22⟩, ⟨23⟩, ⟨15⟩, ⟨15⟩, ⟨4⟩, ⟨11⟩, ⟨4⟩, ⟨23⟩, ⟨19⟩, ⟨14⟩,
    ⟨24⟩, ⟨19⟩, ⟨17⟩, ⟨18⟩, ⟨4⟩],
   by decide, by decide, by decide, by decide⟩

end Fiddler
